import Mathlib

/-!
# Verification model for `linked_hashtbl` (aim-stuff/hashtbl)

The repository ships only the public header `src/linked_hashtbl.h`; the
implementation file (`linked_hashtbl.c`) is not present.  The operations
below are therefore modelled from the specification (`spec.md`), faithful
to its words, using a shallow functional embedding:

* Keys are an abstract type `K`; the table carries the caller-supplied
  hash function (`hash : K → Nat`, modelling `unsigned int` results) and
  equality function (`eq : K → K → Bool`, first argument the search key).
* Values model C `void *` pointers as `Nat`, with `0` standing for `NULL`.
  NULL keys are a precondition violation per the header, so no null key
  is modelled.
* The bucket array is represented implicitly: an entry lives in bucket
  `hash key % capacity` (the spec's power-of-two mask), and a bucket's
  chain consists of the entries of the order list whose bucket index
  matches.  Chain order is immaterial to the model because the scan
  predicates used by insert/lookup/remove depend only on an entry's key.
* The order list is the `entries` field, head = oldest.
* Allocation is modelled by explicit success flags on the fallible
  operations (`entryAllocOk` for the entry node, `allocOk` for a new
  bucket array); the caller-supplied key/value free functions are
  modelled by ghost logs `freedKeys` / `freedVals` recording, in order,
  every key and value handed to them when an entry is destroyed.
* The C `double` load factor is modelled as an exact rational kept as a
  numerator/denominator pair `loadNum / loadDen` (the spec's values,
  e.g. 0.75 = 3/4, are exactly representable); the threshold test
  `count / capacity > max_load_factor` is the exact cross-multiplied
  comparison `count * loadDen > capacity * loadNum`.
-/

set_option autoImplicit false

namespace LinkedHashtbl

variable {K : Type}

/-- Modelled from the spec: the Table state of §3 (the `struct l_hashtbl`
of the missing implementation file).  `entries` is the Order List (head =
oldest); `freedKeys`/`freedVals` are ghost logs of the arguments passed to
the caller-supplied key/value free functions. -/
structure Tbl (K : Type) where
  hash : K → Nat
  eq : K → K → Bool
  capacity : Nat
  loadNum : Nat
  loadDen : Nat
  autoResize : Bool
  accessOrder : Bool
  evictor : Option (Nat → Nat)
  entries : List (K × Nat)
  freedKeys : List K
  freedVals : List Nat

/-- Smallest power of two that is at least `n` (and at least 1). -/
def ceilPow2Go (n : Nat) : Nat → Nat → Nat
  | 0, acc => acc
  | fuel + 1, acc => if n ≤ acc then acc else ceilPow2Go n fuel (2 * acc)

/-- Smallest power of two that is at least `n` (and at least 1),
computed by repeated doubling. -/
def ceilPow2 (n : Nat) : Nat := ceilPow2Go n n 1

/-- Modelled from the spec: an entry `e` of the order list is hit by the
bucket-chain scan for search key `k` exactly when it lies in `k`'s bucket
(`hash mod capacity`, the spec's power-of-two mask) and the caller's
equality function accepts it. -/
def entMatch (t : Tbl K) (k : K) (e : K × Nat) : Bool :=
  (t.hash e.1 % t.capacity == t.hash k % t.capacity) && t.eq k e.1

/-- Modelled from the spec (§4.3): locate the entry for `k` by scanning
`k`'s bucket chain. -/
def findEntry (t : Tbl K) (k : K) : Option (K × Nat) :=
  t.entries.find? (entMatch t k)

/-- Remove the first element satisfying `p` from a list (unlinking an
entry from the order list). -/
def removeFirst {α : Type} (p : α → Bool) : List α → List α
  | [] => []
  | x :: xs => if p x then xs else x :: removeFirst p xs

/-- Overwrite, in place, the value of the first element satisfying `p`
(the spec's "value reference is overwritten in place"). -/
def setValFirst (p : K × Nat → Bool) (v : Nat) : List (K × Nat) → List (K × Nat)
  | [] => []
  | x :: xs => if p x then (x.1, v) :: xs else x :: setValFirst p v xs

/-- Modelled from the spec (§4.1): `l_hashtbl_create`.  Capacity is
rounded up to the next power of two with a floor of 8; a non-positive max
load factor selects the default 0.75.  Allocation of the initial bucket
array is assumed to succeed (creation failure has no observable state).
The requested load factor is the exact rational `mlfNum / mlfDen`. -/
def l_hashtbl_create (initialCapacity : Nat) (mlfNum : Int) (mlfDen : Nat)
    (autoResize accessOrder : Bool) (hash : K → Nat) (eq : K → K → Bool)
    (evictor : Option (Nat → Nat)) : Tbl K :=
  { hash := hash, eq := eq,
    capacity := max 8 (ceilPow2 initialCapacity),
    loadNum := if mlfNum ≤ 0 ∨ mlfDen = 0 then 3 else mlfNum.toNat,
    loadDen := if mlfNum ≤ 0 ∨ mlfDen = 0 then 4 else mlfDen,
    autoResize := autoResize, accessOrder := accessOrder,
    evictor := evictor, entries := [], freedKeys := [], freedVals := [] }

/-- Modelled from the spec (§4.5): `l_hashtbl_resize`.  Rounds the
requested capacity up to a power of two, and relinks every entry into the
new bucket array (implicit here: bucket membership is derived from
`capacity`), leaving the order list untouched.  If the new bucket array
cannot be allocated (`allocOk = false`) it returns status 1 with the
table exactly in its pre-call state. -/
def l_hashtbl_resize (allocOk : Bool) (t : Tbl K) (newCapacity : Nat) : Nat × Tbl K :=
  if allocOk then (0, { t with capacity := ceilPow2 newCapacity }) else (1, t)

/-- Modelled from the spec (§4.2): after a successful insert, if
auto-resize is enabled and the load factor now exceeds the threshold,
resize to double capacity (best effort: a failed allocation is ignored). -/
def maybeResize (allocOk : Bool) (t : Tbl K) : Tbl K :=
  if t.autoResize = true ∧ t.capacity * t.loadNum < t.entries.length * t.loadDen then
    (l_hashtbl_resize allocOk t (2 * t.capacity)).2
  else t

/-- Modelled from the spec (§4.2): after insert completes, a configured
eviction hook is invoked with the current entry count; the table removes
the returned number of entries from the head of the order list, invoking
the key/value free functions for each. -/
def runEvictor (t : Tbl K) : Tbl K :=
  match t.evictor with
  | none => t
  | some f =>
    let n := f t.entries.length
    { t with entries := t.entries.drop n,
             freedKeys := t.freedKeys ++ (t.entries.take n).map Prod.fst,
             freedVals := t.freedVals ++ (t.entries.take n).map Prod.snd }

/-- Modelled from the spec (§4.2): the core of `l_hashtbl_insert`.  If
the key is already present (per the equality function, scanning its
bucket chain) its value is overwritten in place; otherwise a new entry is
allocated (`entryAllocOk` models that allocation) and appended to the
order-list tail.  Status 0 on success, 1 if the entry node cannot be
allocated. -/
def insertEntry (entryAllocOk : Bool) (t : Tbl K) (k : K) (v : Nat) : Nat × Tbl K :=
  match findEntry t k with
  | some _ => (0, { t with entries := setValFirst (entMatch t k) v t.entries })
  | none =>
    if entryAllocOk then (0, { t with entries := t.entries ++ [(k, v)] })
    else (1, t)

/-- Modelled from the spec (§4.2): `l_hashtbl_insert`.  After a
successful `insertEntry` the auto-resize check and then the eviction hook
run, in that order; a failed insert leaves the table untouched. -/
def l_hashtbl_insert (entryAllocOk resizeAllocOk : Bool) (t : Tbl K)
    (k : K) (v : Nat) : Nat × Tbl K :=
  if (insertEntry entryAllocOk t k v).1 = 0 then
    (0, runEvictor (maybeResize resizeAllocOk (insertEntry entryAllocOk t k v).2))
  else insertEntry entryAllocOk t k v

/-- Modelled from the spec (§4.3): `l_hashtbl_lookup`.  Returns the
associated value, or `NULL` (modelled as `0`) if the key is not present.
In access-order mode a successful hit unlinks the entry and re-appends it
at the order-list tail; the bucket array is untouched.  The returned
table carries that side effect. -/
def l_hashtbl_lookup (t : Tbl K) (k : K) : Nat × Tbl K :=
  match findEntry t k with
  | none => (0, t)
  | some e =>
    (e.2, if t.accessOrder then
            { t with entries := removeFirst (entMatch t k) t.entries ++ [e] }
          else t)

/-- Modelled from the spec (§4.4): `l_hashtbl_remove`.  Unlinks the found
entry from chain and order list, invokes the key/value free functions
(ghost logs), and returns 0; returns 1 if the key is not found. -/
def l_hashtbl_remove (t : Tbl K) (k : K) : Nat × Tbl K :=
  match findEntry t k with
  | none => (1, t)
  | some e =>
    (0, { t with entries := removeFirst (entMatch t k) t.entries,
                 freedKeys := t.freedKeys ++ [e.1],
                 freedVals := t.freedVals ++ [e.2] })

/-- `l_hashtbl_count`: number of entries. -/
def l_hashtbl_count (t : Tbl K) : Nat := t.entries.length

/-- `l_hashtbl_capacity`: the bucket-array capacity. -/
def l_hashtbl_capacity (t : Tbl K) : Nat := t.capacity

/-- The table's maximum load factor, as the exact rational it models. -/
def maxLoadFactor (t : Tbl K) : ℚ := (t.loadNum : ℚ) / (t.loadDen : ℚ)

/-- Modelled from the spec (§4.6): the iterator, a cursor over the order
list bound at initialization time.  `rest` holds the entries still to be
visited, in visit order. -/
structure Iter (K : Type) where
  direction : Int
  rest : List (K × Nat)

/-- Modelled from the spec (§4.6): `l_hashtbl_iter_init` binds the cursor
to the order-list head (direction 1, forward) or tail (direction -1,
backward). -/
def l_hashtbl_iter_init (t : Tbl K) (direction : Int) : Iter K :=
  { direction := direction,
    rest := if direction = 1 then t.entries else t.entries.reverse }

/-- Modelled from the spec (§4.6): `l_hashtbl_iter_next` advances one
step, exposing the current entry's key/value, and reports whether an
entry was produced (`none` models the has-more flag turning 0). -/
def l_hashtbl_iter_next (it : Iter K) : Option ((K × Nat) × Iter K) :=
  match it.rest with
  | [] => none
  | e :: tl => some (e, { direction := it.direction, rest := tl })

/-- Walk the remaining cursor positions in visit order. -/
def iterSteps : List (K × Nat) → List (K × Nat)
  | [] => []
  | e :: tl => e :: iterSteps tl

/-- The full trace of an iterator: the entries produced by repeatedly
calling `l_hashtbl_iter_next` until it reports no more (see
`iterCollect_eq_next` below for that characterisation). -/
def iterCollect (it : Iter K) : List (K × Nat) := iterSteps it.rest

/-- Fold a sequence of inserts (all allocations succeeding) over a table. -/
def insertAll (t : Tbl K) (kvs : List (K × Nat)) : Tbl K :=
  kvs.foldl (fun s e => (l_hashtbl_insert true true s e.1 e.2).2) t

/-- The association-list effect of one insert: overwrite the value of the
first entry with an equal key in place, or append a fresh entry. -/
def upsert (eqf : K → K → Bool) (l : List (K × Nat)) (k : K) (v : Nat) : List (K × Nat) :=
  match l.find? (fun e => eqf k e.1) with
  | some _ => setValFirst (fun e => eqf k e.1) v l
  | none => l ++ [(k, v)]

/-- The distinct keys of a sequence, in first-occurrence order, two keys
counting as the same when the equality function accepts the later one
against the earlier one. -/
def distinctKeys (eq : K → K → Bool) (ks : List K) : List K :=
  ks.foldl (fun acc k => if acc.any (fun a => eq k a) then acc else acc ++ [k]) []

/-- The last value written for key `k` by a sequence of inserts (the
value of the latest element whose key equals `k`). -/
def lastWritten (eq : K → K → Bool) (kvs : List (K × Nat)) (k : K) : Option Nat :=
  (kvs.reverse.find? (fun e => eq k e.1)).map Prod.snd

/-- The members of bucket `i`'s collision chain (as a sublist of the
order list; the bucket array is derived, see the header comment). -/
def chainOf (t : Tbl K) (i : Nat) : List (K × Nat) :=
  t.entries.filter (fun e => t.hash e.1 % t.capacity == i)

/-- Integer-key hash function of the concrete scenarios (the utility
hash/equals pairs are external collaborators; identity hash suffices). -/
def natHash : Nat → Nat := fun k => k

/-- Integer-key equality function of the concrete scenarios. -/
def natEq : Nat → Nat → Bool := fun a b => a == b

/-- Scenario table: capacity 8, max load factor 3/4, auto-resize on,
insertion order, no evictor. -/
def tIns : Tbl Nat := l_hashtbl_create 8 3 4 true false natHash natEq none

/-- `tIns` after inserting the seven distinct keys 1..7 (claim C7). -/
def t7 : Tbl Nat :=
  insertAll tIns [(1, 10), (2, 20), (3, 30), (4, 40), (5, 50), (6, 60), (7, 70)]

/-- Scenario table: access-order mode, no auto-resize, no evictor. -/
def tAcc : Tbl Nat := l_hashtbl_create 8 3 4 false true natHash natEq none

/-- `tAcc` after inserting A=1, B=2, C=3 (claim C4). -/
def tABC : Tbl Nat := insertAll tAcc [(1, 10), (2, 20), (3, 30)]

/-- `tABC` after looking up A=1 (the access-order side effect). -/
def tABC2 : Tbl Nat := (l_hashtbl_lookup tABC 1).2

/-- Scenario table with an eviction hook returning 1 once count > 3. -/
def tEvict : Tbl Nat :=
  l_hashtbl_create 8 3 4 false false natHash natEq
    (some (fun c => if 3 < c then 1 else 0))

/-- `tEvict` after inserting the first four of five unique keys. -/
def tEv4 : Tbl Nat := insertAll tEvict [(1, 10), (2, 20), (3, 30), (4, 40)]

/-- `tEvict` after inserting five unique keys (claim C8). -/
def tEv5 : Tbl Nat := (l_hashtbl_insert true true tEv4 5 50).2

/-- Table created with the tiny max load factor 1/100 and auto-resize on
(counterexample to the unconditional load-factor invariant of C7). -/
def tTiny : Tbl Nat := l_hashtbl_create 8 1 100 true false natHash natEq none

/-- `tTiny` after one insert with every allocation succeeding. -/
def tTiny1 : Tbl Nat := (l_hashtbl_insert true true tTiny 1 10).2

/-- Plain witness table holding keys 5 and 6. -/
def tW : Tbl Nat :=
  insertAll (l_hashtbl_create 8 3 4 false false natHash natEq none)
    [(5, 50), (6, 60)]

/-- Witness table holding key 5 with the NULL value (claim C10). -/
def tNull : Tbl Nat :=
  insertAll (l_hashtbl_create 8 3 4 false false natHash natEq none) [(5, 0)]

/-! ## Lemmas about the list helpers -/

theorem iterSteps_id (l : List (K × Nat)) : iterSteps l = l := by
  induction l with
  | nil => rfl
  | cons x xs ih => simp [iterSteps, ih]

theorem iterCollect_eq_next (it : Iter K) :
    iterCollect it = (match l_hashtbl_iter_next it with
      | none => []
      | some (e, it2) => e :: iterCollect it2) := by
  obtain ⟨d, rest⟩ := it
  cases rest <;> rfl

theorem setValFirst_map_fst (p : K × Nat → Bool) (v : Nat) (l : List (K × Nat)) :
    (setValFirst p v l).map Prod.fst = l.map Prod.fst := by
  induction l with
  | nil => rfl
  | cons x xs ih =>
    unfold setValFirst
    split <;> simp [ih]

theorem setValFirst_length (p : K × Nat → Bool) (v : Nat) (l : List (K × Nat)) :
    (setValFirst p v l).length = l.length := by
  induction l with
  | nil => rfl
  | cons x xs ih =>
    unfold setValFirst
    split <;> simp [ih]

theorem find?_setValFirst_self (p : K × Nat → Bool)
    (hp : ∀ (a : K) (b b' : Nat), p (a, b) = p (a, b')) (v : Nat)
    (l : List (K × Nat)) :
    (setValFirst p v l).find? p = (l.find? p).map (fun e => (e.1, v)) := by
  induction l with
  | nil => rfl
  | cons x xs ih =>
    unfold setValFirst
    cases hx : p x with
    | true =>
      have hx' : p (x.1, v) = true := by rw [hp x.1 v x.2]; exact hx
      rw [if_pos rfl, List.find?_cons_of_pos _ hx', List.find?_cons_of_pos _ hx]
      rfl
    | false =>
      rw [if_neg (by simp), List.find?_cons_of_neg _ (by simp [hx]),
        List.find?_cons_of_neg _ (by simp [hx]), ih]

theorem find?_setValFirst_disjoint (p q : K × Nat → Bool)
    (hq : ∀ (a : K) (b b' : Nat), q (a, b) = q (a, b'))
    (hdisj : ∀ e, p e = true → q e = false) (v : Nat) (l : List (K × Nat)) :
    (setValFirst p v l).find? q = l.find? q := by
  induction l with
  | nil => rfl
  | cons x xs ih =>
    unfold setValFirst
    cases hx : p x with
    | true =>
      have hqx : q x = false := hdisj x hx
      have hqx' : q (x.1, v) = false := by rw [hq x.1 v x.2]; exact hqx
      rw [if_pos rfl, List.find?_cons_of_neg _ (by simp [hqx']),
        List.find?_cons_of_neg _ (by simp [hqx])]
    | false =>
      cases hqx : q x with
      | true =>
        rw [if_neg (by simp), List.find?_cons_of_pos _ hqx,
          List.find?_cons_of_pos _ hqx]
      | false =>
        rw [if_neg (by simp), List.find?_cons_of_neg _ (by simp [hqx]),
          List.find?_cons_of_neg _ (by simp [hqx]), ih]

theorem removeFirst_of_none {α : Type} (p : α → Bool) (l : List α)
    (h : l.find? p = none) : removeFirst p l = l := by
  induction l with
  | nil => rfl
  | cons x xs ih =>
    cases hx : p x with
    | true => rw [List.find?_cons_of_pos _ hx] at h; exact absurd h (by simp)
    | false =>
      rw [List.find?_cons_of_neg _ (by simp [hx])] at h
      unfold removeFirst
      rw [if_neg (by simp [hx]), ih h]

theorem find?_decomp {α : Type} (p : α → Bool) (l : List α) (e : α)
    (h : l.find? p = some e) :
    ∃ l1 l2, l = l1 ++ e :: l2 ∧ (∀ x ∈ l1, p x = false) ∧
      removeFirst p l = l1 ++ l2 ∧ p e = true := by
  induction l with
  | nil => simp [List.find?] at h
  | cons x xs ih =>
    cases hx : p x with
    | true =>
      rw [List.find?_cons_of_pos _ hx] at h
      obtain rfl : x = e := by injection h
      exact ⟨[], xs, by simp, by simp, by simp [removeFirst, hx], hx⟩
    | false =>
      rw [List.find?_cons_of_neg _ (by simp [hx])] at h
      obtain ⟨l1, l2, hl, hfalse, hrem, hpe⟩ := ih h
      refine ⟨x :: l1, l2, by simp [hl], ?_, ?_, hpe⟩
      · intro y hy
        rcases List.mem_cons.mp hy with rfl | hy2
        · exact hx
        · exact hfalse y hy2
      · unfold removeFirst
        rw [if_neg (by simp [hx]), hrem]
        rfl

theorem perm_removeFirst {α : Type} (p : α → Bool) (l : List α) (e : α)
    (h : l.find? p = some e) : l.Perm (e :: removeFirst p l) := by
  obtain ⟨l1, l2, hl, -, hrem, -⟩ := find?_decomp p l e h
  rw [hrem, hl]
  exact List.perm_middle

theorem find?_removeFirst_of_countP (p : (K × Nat) → Bool) (l : List (K × Nat))
    (hone : l.countP p ≤ 1) : (removeFirst p l).find? p = none := by
  induction l with
  | nil => rfl
  | cons x xs ih =>
    cases hx : p x with
    | true =>
      unfold removeFirst
      rw [if_pos hx]
      have h0 : xs.countP p = 0 := by
        rw [List.countP_cons_of_pos _ _ hx] at hone
        omega
      rw [List.find?_eq_none]
      intro a ha
      simpa using List.countP_eq_zero.mp h0 a ha
    | false =>
      unfold removeFirst
      rw [if_neg (by simp [hx]), List.find?_cons_of_neg _ (by simp [hx])]
      rw [List.countP_cons_of_neg _ _ (by simp [hx])] at hone
      exact ih hone

/-! ## Lemmas about the bucket-chain scan -/

theorem entMatch_eq_of_resp (t : Tbl K)
    (hresp : ∀ a b, t.eq a b = true → t.hash a = t.hash b) (k : K) :
    entMatch t k = fun e => t.eq k e.1 := by
  funext e
  unfold entMatch
  cases h : t.eq k e.1 with
  | false => simp [h]
  | true => simp [h, hresp k e.1 h]

theorem findEntry_eq_of_resp (t : Tbl K)
    (hresp : ∀ a b, t.eq a b = true → t.hash a = t.hash b) (k : K) :
    findEntry t k = t.entries.find? (fun e => t.eq k e.1) := by
  unfold findEntry
  rw [entMatch_eq_of_resp t hresp k]

/-! ## Shape lemmas: which fields each operation can touch -/

theorem runEvictor_of_none (t : Tbl K) (h : t.evictor = none) :
    runEvictor t = t := by
  unfold runEvictor
  rw [h]

theorem runEvictor_shape (t : Tbl K) :
    ∃ l fk fv, runEvictor t =
      { t with entries := l, freedKeys := fk, freedVals := fv } := by
  unfold runEvictor
  split
  · exact ⟨t.entries, t.freedKeys, t.freedVals, rfl⟩
  · next f heq =>
    exact ⟨t.entries.drop (f t.entries.length),
      t.freedKeys ++ (t.entries.take (f t.entries.length)).map Prod.fst,
      t.freedVals ++ (t.entries.take (f t.entries.length)).map Prod.snd, rfl⟩

theorem runEvictor_length_le (t : Tbl K) :
    (runEvictor t).entries.length ≤ t.entries.length := by
  unfold runEvictor
  split
  · exact le_refl _
  · next f heq =>
    show (t.entries.drop (f t.entries.length)).length ≤ t.entries.length
    rw [List.length_drop]
    omega

theorem maybeResize_shape (ok : Bool) (t : Tbl K) :
    ∃ c, maybeResize ok t = { t with capacity := c } := by
  unfold maybeResize l_hashtbl_resize
  split
  · split
    · exact ⟨_, rfl⟩
    · exact ⟨t.capacity, rfl⟩
  · exact ⟨t.capacity, rfl⟩

theorem insertEntry_shape (ea : Bool) (t : Tbl K) (k : K) (v : Nat) :
    ∃ l, (insertEntry ea t k v).2 = { t with entries := l } := by
  unfold insertEntry
  cases h : findEntry t k with
  | some e => exact ⟨_, rfl⟩
  | none =>
    cases ea with
    | true => exact ⟨t.entries ++ [(k, v)], rfl⟩
    | false => exact ⟨t.entries, rfl⟩

theorem insert_shape (ea ra : Bool) (t : Tbl K) (k : K) (v : Nat) :
    ∃ l c fk fv, (l_hashtbl_insert ea ra t k v).2 =
      { t with entries := l, capacity := c, freedKeys := fk, freedVals := fv } := by
  obtain ⟨l1, h1⟩ := insertEntry_shape ea t k v
  unfold l_hashtbl_insert
  split
  · obtain ⟨c, h2⟩ := maybeResize_shape ra (insertEntry ea t k v).2
    obtain ⟨l3, fk, fv, h3⟩ := runEvictor_shape (maybeResize ra (insertEntry ea t k v).2)
    rw [h3, h2, h1]
    exact ⟨l3, c, fk, fv, rfl⟩
  · exact ⟨l1, t.capacity, t.freedKeys, t.freedVals, by rw [h1]⟩

theorem insertAll_shape (t : Tbl K) (kvs : List (K × Nat)) :
    ∃ l c fk fv, insertAll t kvs =
      { t with entries := l, capacity := c, freedKeys := fk, freedVals := fv } := by
  induction kvs generalizing t with
  | nil => exact ⟨t.entries, t.capacity, t.freedKeys, t.freedVals, rfl⟩
  | cons kv kvs ih =>
    obtain ⟨l1, c1, fk1, fv1, h1⟩ := insert_shape true true t kv.1 kv.2
    obtain ⟨l2, c2, fk2, fv2, h2⟩ := ih (l_hashtbl_insert true true t kv.1 kv.2).2
    refine ⟨l2, c2, fk2, fv2, ?_⟩
    unfold insertAll at h2 ⊢
    rw [List.foldl_cons, h2, h1]

theorem insertAll_eq_fn (t : Tbl K) (kvs : List (K × Nat)) :
    (insertAll t kvs).eq = t.eq := by
  obtain ⟨l, c, fk, fv, h⟩ := insertAll_shape t kvs
  rw [h]

theorem insertAll_hash_fn (t : Tbl K) (kvs : List (K × Nat)) :
    (insertAll t kvs).hash = t.hash := by
  obtain ⟨l, c, fk, fv, h⟩ := insertAll_shape t kvs
  rw [h]

theorem insertAll_evictor_fn (t : Tbl K) (kvs : List (K × Nat)) :
    (insertAll t kvs).evictor = t.evictor := by
  obtain ⟨l, c, fk, fv, h⟩ := insertAll_shape t kvs
  rw [h]

theorem natResp : ∀ a b : Nat, natEq a b = true → natHash a = natHash b :=
  fun a b h => by
    have h2 : a = b := by simpa [natEq] using h
    rw [h2]

theorem insert_fields (ea ra : Bool) (t : Tbl K) (k : K) (v : Nat) :
    (l_hashtbl_insert ea ra t k v).2.hash = t.hash ∧
    (l_hashtbl_insert ea ra t k v).2.eq = t.eq ∧
    (l_hashtbl_insert ea ra t k v).2.autoResize = t.autoResize ∧
    (l_hashtbl_insert ea ra t k v).2.accessOrder = t.accessOrder ∧
    (l_hashtbl_insert ea ra t k v).2.evictor = t.evictor ∧
    (l_hashtbl_insert ea ra t k v).2.loadNum = t.loadNum ∧
    (l_hashtbl_insert ea ra t k v).2.loadDen = t.loadDen := by
  obtain ⟨l, c, fk, fv, h⟩ := insert_shape ea ra t k v
  rw [h]
  exact ⟨rfl, rfl, rfl, rfl, rfl, rfl, rfl⟩

theorem le_ceilPow2Go (n : Nat) :
    ∀ fuel acc : Nat, n ≤ acc * 2 ^ fuel → n ≤ ceilPow2Go n fuel acc := by
  intro fuel
  induction fuel with
  | zero => intro acc h; simpa [ceilPow2Go] using h
  | succ m ih =>
    intro acc h
    unfold ceilPow2Go
    split
    · next h2 => exact h2
    · refine ih (2 * acc) ?_
      have hrw : acc * 2 ^ (m + 1) = 2 * acc * 2 ^ m := by ring
      rw [hrw] at h
      exact h

theorem le_ceilPow2 (n : Nat) : n ≤ ceilPow2 n := by
  refine le_ceilPow2Go n n 1 ?_
  simpa using (Nat.lt_two_pow n).le

theorem insertEntry_fst (t : Tbl K) (k : K) (v : Nat) :
    (insertEntry true t k v).1 = 0 := by
  unfold insertEntry
  cases h : findEntry t k <;> simp

theorem insert_success_eq (ra : Bool) (t : Tbl K) (k : K) (v : Nat) :
    l_hashtbl_insert true ra t k v =
      (0, runEvictor (maybeResize ra (insertEntry true t k v).2)) := by
  unfold l_hashtbl_insert
  rw [if_pos (insertEntry_fst t k v)]

theorem insert_entries_noev (ea ra : Bool) (t : Tbl K) (k : K) (v : Nat)
    (hnoev : t.evictor = none) (hst : (insertEntry ea t k v).1 = 0) :
    (l_hashtbl_insert ea ra t k v).2.entries = (insertEntry ea t k v).2.entries := by
  unfold l_hashtbl_insert
  rw [if_pos hst]
  obtain ⟨l1, h1⟩ := insertEntry_shape ea t k v
  obtain ⟨c, hm⟩ := maybeResize_shape ra (insertEntry ea t k v).2
  have hev : (maybeResize ra (insertEntry ea t k v).2).evictor = none := by
    rw [hm, h1]
    exact hnoev
  rw [runEvictor_of_none _ hev, hm]

theorem insertEntry_found (ea : Bool) (t : Tbl K) (k : K) (v : Nat) (e : K × Nat)
    (h : findEntry t k = some e) :
    insertEntry ea t k v =
      (0, { t with entries := setValFirst (entMatch t k) v t.entries }) := by
  unfold insertEntry
  rw [h]

theorem insertEntry_absent (t : Tbl K) (k : K) (v : Nat)
    (h : findEntry t k = none) :
    insertEntry true t k v = (0, { t with entries := t.entries ++ [(k, v)] }) := by
  unfold insertEntry
  rw [h]
  rfl

theorem insertEntry_alloc_fail (t : Tbl K) (k : K) (v : Nat)
    (h : findEntry t k = none) : insertEntry false t k v = (1, t) := by
  unfold insertEntry
  rw [h]
  rfl

theorem lookup_of_none (t : Tbl K) (k : K) (h : findEntry t k = none) :
    l_hashtbl_lookup t k = (0, t) := by
  unfold l_hashtbl_lookup
  rw [h]

theorem lookup_of_found (t : Tbl K) (k : K) (e : K × Nat)
    (h : findEntry t k = some e) :
    l_hashtbl_lookup t k = (e.2,
      if t.accessOrder then
        { t with entries := removeFirst (entMatch t k) t.entries ++ [e] }
      else t) := by
  unfold l_hashtbl_lookup
  rw [h]

theorem remove_of_none (t : Tbl K) (k : K) (h : findEntry t k = none) :
    l_hashtbl_remove t k = (1, t) := by
  unfold l_hashtbl_remove
  rw [h]

theorem remove_of_found (t : Tbl K) (k : K) (e : K × Nat)
    (h : findEntry t k = some e) :
    l_hashtbl_remove t k = (0,
      { t with entries := removeFirst (entMatch t k) t.entries,
               freedKeys := t.freedKeys ++ [e.1],
               freedVals := t.freedVals ++ [e.2] }) := by
  unfold l_hashtbl_remove
  rw [h]

/-! ## Claim C6: resize allocation failure leaves the table untouched -/

/-- C6: if the new bucket array cannot be allocated, `l_hashtbl_resize`
reports failure (status 1) and the table is exactly its pre-call state:
no entry relocated, capacity, count, order list and ghost logs unchanged. -/
theorem resize_alloc_failure_is_noop (t : Tbl K) (n : Nat) :
    (l_hashtbl_resize false t n).1 = 1 ∧ (l_hashtbl_resize false t n).2 = t :=
  ⟨rfl, rfl⟩

/-! ## Claim C10: lookup conflates NULL values with absent keys -/

/-- C10: `l_hashtbl_lookup` returns the NULL pointer (modelled as 0) both
when the key is absent and when the key is present with value NULL, so
the two cases are indistinguishable through lookup; the status code of
`l_hashtbl_remove` (1 = not found, 0 = found) does distinguish them. -/
theorem lookup_null_indistinguishable (t : Tbl K) (k : K) :
    (findEntry t k = none →
       (l_hashtbl_lookup t k).1 = 0 ∧ (l_hashtbl_remove t k).1 = 1) ∧
    (∀ e, findEntry t k = some e → e.2 = 0 →
       (l_hashtbl_lookup t k).1 = 0 ∧ (l_hashtbl_remove t k).1 = 0) := by
  constructor
  · intro h
    rw [lookup_of_none t k h, remove_of_none t k h]
    exact ⟨rfl, rfl⟩
  · intro e h hv
    rw [lookup_of_found t k e h, remove_of_found t k e h]
    exact ⟨hv, rfl⟩

/-- Witness for C10 at the concrete table `tNull` (key 5 inserted with
value NULL, key 7 absent). -/
theorem lookup_null_indistinguishable_witness :
    ((l_hashtbl_lookup tNull 7).1 = 0 ∧ (l_hashtbl_remove tNull 7).1 = 1) ∧
    ((l_hashtbl_lookup tNull 5).1 = 0 ∧ (l_hashtbl_remove tNull 5).1 = 0) :=
  ⟨(lookup_null_indistinguishable tNull 7).1 (by decide),
   (lookup_null_indistinguishable tNull 5).2 (5, 0) (by decide) (by decide)⟩

/-! ## Claim C5: a successful resize preserves mappings and order -/

/-- C5: a successful `l_hashtbl_resize` (new bucket array allocated)
preserves every key-to-value mapping (lookup returns the same value
afterwards) and leaves the Order List untouched, so full iteration in
either direction yields exactly the same entry sequence as before. -/
theorem resize_preserves_mappings_and_order (t : Tbl K) (n : Nat) (k : K) (d : Int)
    (hresp : ∀ a b, t.eq a b = true → t.hash a = t.hash b) :
    (l_hashtbl_resize true t n).1 = 0 ∧
    (l_hashtbl_lookup (l_hashtbl_resize true t n).2 k).1 = (l_hashtbl_lookup t k).1 ∧
    (l_hashtbl_resize true t n).2.entries = t.entries ∧
    iterCollect (l_hashtbl_iter_init (l_hashtbl_resize true t n).2 d) =
      iterCollect (l_hashtbl_iter_init t d) := by
  refine ⟨rfl, ?_, rfl, rfl⟩
  have hresp2 : ∀ a b, (l_hashtbl_resize true t n).2.eq a b = true →
      (l_hashtbl_resize true t n).2.hash a = (l_hashtbl_resize true t n).2.hash b := hresp
  have heq : findEntry (l_hashtbl_resize true t n).2 k = findEntry t k := by
    rw [findEntry_eq_of_resp _ hresp2 k, findEntry_eq_of_resp t hresp k]
    rfl
  cases hf : findEntry t k with
  | none => rw [lookup_of_none _ _ (heq.trans hf), lookup_of_none t k hf]
  | some e => rw [lookup_of_found _ _ e (heq.trans hf), lookup_of_found t k e hf]

/-- Witness for C5 at `tW` (keys 5, 6), shrinking the capacity to 4. -/
theorem resize_preserves_witness :
    (l_hashtbl_resize true tW 4).1 = 0 ∧
    (l_hashtbl_lookup (l_hashtbl_resize true tW 4).2 5).1 = (l_hashtbl_lookup tW 5).1 ∧
    (l_hashtbl_resize true tW 4).2.entries = tW.entries ∧
    iterCollect (l_hashtbl_iter_init (l_hashtbl_resize true tW 4).2 1) =
      iterCollect (l_hashtbl_iter_init tW 1) :=
  resize_preserves_mappings_and_order tW 4 5 1 (by
    have h1 : tW.eq = natEq := by unfold tW; rw [insertAll_eq_fn]; rfl
    have h2 : tW.hash = natHash := by unfold tW; rw [insertAll_hash_fn]; rfl
    rw [h1, h2]
    exact natResp)

/-! ## Claim C1: insert/lookup and remove/lookup round trips -/

/-- C1: for any table with no eviction hook whose equality function is
respected by the hash function and reflexive at `k`, `insert(k, v)` then
`lookup(k)` returns `v`; and when `k` is present (remove reports found,
status 0), `remove(k)` then `lookup(k)` returns the not-found indicator
(NULL, modelled as 0).  The bound on `countP` says `k` is keyed by at
most one entry, which holds in every table reachable with such an
equality function. -/
theorem insert_remove_lookup_roundtrip (t : Tbl K) (k : K) (v : Nat) (ra : Bool)
    (hresp : ∀ a b, t.eq a b = true → t.hash a = t.hash b)
    (hrefl : t.eq k k = true)
    (hnoev : t.evictor = none)
    (hone : t.entries.countP (fun e => t.eq k e.1) ≤ 1) :
    (l_hashtbl_lookup (l_hashtbl_insert true ra t k v).2 k).1 = v ∧
    ((l_hashtbl_remove t k).1 = 0 →
      (l_hashtbl_lookup (l_hashtbl_remove t k).2 k).1 = 0) := by
  constructor
  · obtain ⟨hh, he, -, -, -, -, -⟩ := insert_fields true ra t k v
    have hresp2 : ∀ a b, (l_hashtbl_insert true ra t k v).2.eq a b = true →
        (l_hashtbl_insert true ra t k v).2.hash a =
          (l_hashtbl_insert true ra t k v).2.hash b := by
      rw [hh, he]
      exact hresp
    have hent : (l_hashtbl_insert true ra t k v).2.entries =
        (insertEntry true t k v).2.entries :=
      insert_entries_noev true ra t k v hnoev (insertEntry_fst t k v)
    have hfind : findEntry (l_hashtbl_insert true ra t k v).2 k =
        (insertEntry true t k v).2.entries.find? (fun e => t.eq k e.1) := by
      rw [findEntry_eq_of_resp _ hresp2 k, hent, he]
    cases hf : findEntry t k with
    | some e =>
      have h1 : (insertEntry true t k v).2.entries
          = setValFirst (fun e2 => t.eq k e2.1) v t.entries := by
        rw [insertEntry_found true t k v e hf]
        show setValFirst (entMatch t k) v t.entries = _
        rw [entMatch_eq_of_resp t hresp k]
      have h2 : t.entries.find? (fun e2 => t.eq k e2.1) = some e := by
        rw [← findEntry_eq_of_resp t hresp k]
        exact hf
      have h3 : findEntry (l_hashtbl_insert true ra t k v).2 k = some (e.1, v) := by
        rw [hfind, h1,
          find?_setValFirst_self (fun e2 => t.eq k e2.1) (fun a b b' => rfl) v t.entries, h2]
        rfl
      rw [lookup_of_found _ k (e.1, v) h3]
    | none =>
      have h1 : (insertEntry true t k v).2.entries = t.entries ++ [(k, v)] := by
        rw [insertEntry_absent t k v hf]
      have h2 : t.entries.find? (fun e2 => t.eq k e2.1) = none := by
        rw [← findEntry_eq_of_resp t hresp k]
        exact hf
      have h3 : findEntry (l_hashtbl_insert true ra t k v).2 k = some (k, v) := by
        rw [hfind, h1, List.find?_append, h2]
        simp [List.find?_cons, hrefl]
      rw [lookup_of_found _ k (k, v) h3]
  · intro hrem
    cases hf : findEntry t k with
    | none =>
      rw [remove_of_none t k hf] at hrem
      simp at hrem
    | some e =>
      have hcount : t.entries.countP (entMatch t k) ≤ 1 := by
        rw [entMatch_eq_of_resp t hresp k]
        exact hone
      have hnone : findEntry { t with
          entries := removeFirst (entMatch t k) t.entries,
          freedKeys := t.freedKeys ++ [e.1],
          freedVals := t.freedVals ++ [e.2] } k = none :=
        find?_removeFirst_of_countP (entMatch t k) t.entries hcount
      simp only [remove_of_found t k e hf]
      rw [lookup_of_none _ k hnone]

/-- Witness for C1 at `tW` and the present key 5. -/
theorem insert_remove_lookup_roundtrip_witness :
    (l_hashtbl_lookup (l_hashtbl_insert true true tW 5 99).2 5).1 = 99 ∧
    (l_hashtbl_lookup (l_hashtbl_remove tW 5).2 5).1 = 0 := by
  have hresp : ∀ a b, tW.eq a b = true → tW.hash a = tW.hash b := by
    have h1 : tW.eq = natEq := by unfold tW; rw [insertAll_eq_fn]; rfl
    have h2 : tW.hash = natHash := by unfold tW; rw [insertAll_hash_fn]; rfl
    rw [h1, h2]
    exact natResp
  exact ⟨(insert_remove_lookup_roundtrip tW 5 99 true hresp (by decide) (by rfl)
      (by decide)).1,
    (insert_remove_lookup_roundtrip tW 5 99 true hresp (by decide) (by rfl)
      (by decide)).2 (by decide)⟩

/-! ## Claim C4: access-order reordering on lookup -/

/-- C4: in access-order mode a successful lookup returns the entry's
value, unlinks it and re-appends it at the Order List tail, changing only
the list: the capacity and every derived bucket chain's membership are
unchanged (stated as a permutation of each chain).  Insert never reorders
an already-present key (no evictor configured), and lookup has no side
effect in insertion-order mode.  Concretely, after inserting keys 1, 2, 3
into the access-order table and looking up 1, forward iteration yields
keys 2, 3, 1. -/
theorem access_order_lookup_moves_to_tail (t : Tbl K) (k : K) (v : Nat)
    (ea ra : Bool) (e : K × Nat) :
    (t.accessOrder = true → findEntry t k = some e →
      (l_hashtbl_lookup t k).1 = e.2 ∧
      (l_hashtbl_lookup t k).2.entries = removeFirst (entMatch t k) t.entries ++ [e] ∧
      (l_hashtbl_lookup t k).2.capacity = t.capacity ∧
      ∀ i, (chainOf (l_hashtbl_lookup t k).2 i).Perm (chainOf t i)) ∧
    (t.evictor = none → findEntry t k = some e →
      (l_hashtbl_insert ea ra t k v).2.entries.map Prod.fst = t.entries.map Prod.fst) ∧
    (t.accessOrder = false → (l_hashtbl_lookup t k).2 = t) ∧
    (iterCollect (l_hashtbl_iter_init tABC2 1)).map Prod.fst = [2, 3, 1] := by
  refine ⟨?_, ?_, ?_, by decide⟩
  · intro hacc hf
    have hlook : l_hashtbl_lookup t k =
        (e.2, { t with entries := removeFirst (entMatch t k) t.entries ++ [e] }) := by
      rw [lookup_of_found t k e hf, if_pos hacc]
    rw [hlook]
    refine ⟨rfl, rfl, rfl, ?_⟩
    intro i
    have h1 := perm_removeFirst (entMatch t k) t.entries e hf
    have hperm : (removeFirst (entMatch t k) t.entries ++ [e]).Perm t.entries :=
      (List.perm_append_singleton e (removeFirst (entMatch t k) t.entries)).trans h1.symm
    show ((removeFirst (entMatch t k) t.entries ++ [e]).filter
        (fun e2 => t.hash e2.1 % t.capacity == i)).Perm
      (t.entries.filter (fun e2 => t.hash e2.1 % t.capacity == i))
    exact hperm.filter _
  · intro hnoev hf
    have hst : (insertEntry ea t k v).1 = 0 := by
      rw [insertEntry_found ea t k v e hf]
    rw [insert_entries_noev ea ra t k v hnoev hst, insertEntry_found ea t k v e hf]
    exact setValFirst_map_fst _ v t.entries
  · intro hacc0
    cases hf : findEntry t k with
    | none => rw [lookup_of_none t k hf]
    | some e2 => rw [lookup_of_found t k e2 hf, if_neg (by simp [hacc0])]

/-- Witness for C4: the access-order parts at `tABC` (looking up key 1),
the insert part at `tABC` and the no-side-effect part at the
insertion-order table `tW`. -/
theorem access_order_witness :
    ((l_hashtbl_lookup tABC 1).1 = 10 ∧
     (l_hashtbl_lookup tABC 1).2.entries =
       removeFirst (entMatch tABC 1) tABC.entries ++ [(1, 10)] ∧
     (l_hashtbl_lookup tABC 1).2.capacity = tABC.capacity ∧
     ∀ i, (chainOf (l_hashtbl_lookup tABC 1).2 i).Perm (chainOf tABC i)) ∧
    ((l_hashtbl_insert true true tABC 1 99).2.entries.map Prod.fst =
       tABC.entries.map Prod.fst) ∧
    ((l_hashtbl_lookup tW 5).2 = tW) :=
  ⟨(access_order_lookup_moves_to_tail tABC 1 99 true true (1, 10)).1
      (by decide) (by decide),
   (access_order_lookup_moves_to_tail tABC 1 99 true true (1, 10)).2.1
      (by rfl) (by decide),
   (access_order_lookup_moves_to_tail tW 5 99 true true (5, 50)).2.2.1 (by decide)⟩

/-! ## Claim C3: insertion-order iteration -/

theorem insertAll_entries_of_fresh (eqf : K → K → Bool) (kvs : List (K × Nat)) :
    ∀ t : Tbl K, t.eq = eqf → t.evictor = none →
    (∀ b ∈ kvs, ∀ a ∈ t.entries, eqf b.1 a.1 = false) →
    kvs.Pairwise (fun a b => eqf b.1 a.1 = false) →
    (insertAll t kvs).entries = t.entries ++ kvs := by
  induction kvs with
  | nil =>
    intro t _ _ _ _
    simp [insertAll]
  | cons b rest ih =>
    intro t heq hnoev hfresh hpair
    have hnone : findEntry t b.1 = none := by
      unfold findEntry
      rw [List.find?_eq_none]
      intro a ha
      have hfa : t.eq b.1 a.1 = false := by
        rw [heq]
        exact hfresh b (List.mem_cons_self b rest) a ha
      unfold entMatch
      simp [hfa]
    have hst : (insertEntry true t b.1 b.2).1 = 0 := insertEntry_fst t b.1 b.2
    have hent : (l_hashtbl_insert true true t b.1 b.2).2.entries = t.entries ++ [b] := by
      rw [insert_entries_noev true true t b.1 b.2 hnoev hst,
        insertEntry_absent t b.1 b.2 hnone]
    obtain ⟨hh, he, -, -, hev, -, -⟩ := insert_fields true true t b.1 b.2
    have hfresh2 : ∀ c ∈ rest, ∀ a ∈ (l_hashtbl_insert true true t b.1 b.2).2.entries,
        eqf c.1 a.1 = false := by
      intro c hc a ha
      rw [hent] at ha
      rcases List.mem_append.mp ha with ha1 | ha2
      · exact hfresh c (List.mem_cons_of_mem b hc) a ha1
      · have hab : a = b := by simpa using ha2
        subst hab
        exact (List.pairwise_cons.mp hpair).1 c hc
    have step := ih (l_hashtbl_insert true true t b.1 b.2).2 (he.trans heq)
      (hev.trans hnoev) hfresh2 (List.pairwise_cons.mp hpair).2
    unfold insertAll at step ⊢
    rw [List.foldl_cons, step, hent]
    simp

/-- C3: in insertion-order mode, after inserting any sequence of
pairwise-distinct keys (per the equality function) into a fresh table
with no removes, forward iteration produces exactly the inserted entries
in insertion order, each exactly once, and backward iteration produces
exactly the reverse. -/
theorem insertion_order_iteration (cap : Nat) (mn : Int) (md : Nat) (ar : Bool)
    (hash : K → Nat) (eqf : K → K → Bool) (kvs : List (K × Nat))
    (hpair : kvs.Pairwise (fun a b => eqf b.1 a.1 = false)) :
    iterCollect (l_hashtbl_iter_init
      (insertAll (l_hashtbl_create cap mn md ar false hash eqf none) kvs) 1) = kvs ∧
    iterCollect (l_hashtbl_iter_init
      (insertAll (l_hashtbl_create cap mn md ar false hash eqf none) kvs) (-1))
      = kvs.reverse := by
  have hent : (insertAll (l_hashtbl_create cap mn md ar false hash eqf none) kvs).entries
      = kvs := by
    have h := insertAll_entries_of_fresh eqf kvs
      (l_hashtbl_create cap mn md ar false hash eqf none) rfl rfl
      (by intro b _ a ha; simp [l_hashtbl_create] at ha) hpair
    simpa [l_hashtbl_create] using h
  constructor
  · simp [iterCollect, l_hashtbl_iter_init, iterSteps_id, hent]
  · simp [iterCollect, l_hashtbl_iter_init, iterSteps_id, hent]

/-- Witness for C3 with keys 1, 2, 3 inserted into a fresh table. -/
theorem insertion_order_iteration_witness :
    iterCollect (l_hashtbl_iter_init
      (insertAll (l_hashtbl_create 8 3 4 true false natHash natEq none)
        [(1, 10), (2, 20), (3, 30)]) 1) = [(1, 10), (2, 20), (3, 30)] ∧
    iterCollect (l_hashtbl_iter_init
      (insertAll (l_hashtbl_create 8 3 4 true false natHash natEq none)
        [(1, 10), (2, 20), (3, 30)]) (-1)) = [(3, 30), (2, 20), (1, 10)] :=
  insertion_order_iteration 8 3 4 true natHash natEq [(1, 10), (2, 20), (3, 30)]
    (by decide)

/-! ## Claim C7: the load-factor invariant around insert -/

theorem maybeResize_of_triggered (t : Tbl K) (hauto : t.autoResize = true)
    (hc : t.capacity * t.loadNum < t.entries.length * t.loadDen) :
    maybeResize true t = { t with capacity := ceilPow2 (2 * t.capacity) } := by
  unfold maybeResize
  rw [if_pos ⟨hauto, hc⟩]
  rfl

theorem maybeResize_of_not_triggered (ok : Bool) (t : Tbl K)
    (hc : ¬ (t.autoResize = true ∧
      t.capacity * t.loadNum < t.entries.length * t.loadDen)) :
    maybeResize ok t = t := by
  unfold maybeResize
  rw [if_neg hc]

theorem load_le_iff (a b n d : Nat) (hd : 0 < d) :
    ((a : ℚ) ≤ (b : ℚ) * ((n : ℚ) / (d : ℚ))) ↔ a * d ≤ b * n := by
  have hd2 : (0 : ℚ) < (d : ℚ) := by exact_mod_cast hd
  rw [← mul_div_assoc, le_div_iff₀ hd2]
  constructor
  · intro h
    exact_mod_cast h
  · intro h
    exact_mod_cast h

/-- C7 counterexample: auto-resize is enabled and every allocation
succeeds, yet after a single insert into a legally created table (max
load factor 1/100) the invariant `count ≤ capacity × max_load_factor`
fails — the single doubling resize cannot restore it. -/
theorem load_invariant_counterexample :
    tTiny.autoResize = true ∧
    ¬ ((l_hashtbl_count tTiny1 : ℚ) ≤
        (l_hashtbl_capacity tTiny1 : ℚ) * maxLoadFactor tTiny1) := by
  refine ⟨by decide, ?_⟩
  have h1 : l_hashtbl_count tTiny1 = 1 := by decide
  have h2 : l_hashtbl_capacity tTiny1 = 16 := by decide
  have h3 : tTiny1.loadNum = 1 := by decide
  have h4 : tTiny1.loadDen = 100 := by decide
  rw [h1, h2, maxLoadFactor, h3, h4]
  norm_num

/-- C7 (amended): if `count ≤ capacity × max_load_factor` held before the
insert and additionally `capacity × max_load_factor ≥ 1` (both expressed
exactly, cross-multiplied by the load factor's denominator), then after
an insert with auto-resize enabled and all allocations succeeding the
invariant holds again at completion — the doubling resize triggers before
insert returns, and a configured eviction hook can only lower the count
further.  The concrete scenario holds as claimed: capacity 8, load factor
0.75, auto-resize on, inserting keys 1..7 leaves capacity 16 and count 7
with all seven keys retrievable. -/
theorem insert_preserves_load_invariant (t : Tbl K) (k : K) (v : Nat)
    (hauto : t.autoResize = true)
    (hden : 0 < t.loadDen)
    (hpre : l_hashtbl_count t * t.loadDen ≤ l_hashtbl_capacity t * t.loadNum)
    (hone : t.loadDen ≤ l_hashtbl_capacity t * t.loadNum) :
    ((l_hashtbl_count (l_hashtbl_insert true true t k v).2 : ℚ) ≤
      (l_hashtbl_capacity (l_hashtbl_insert true true t k v).2 : ℚ) *
        maxLoadFactor (l_hashtbl_insert true true t k v).2) ∧
    l_hashtbl_capacity t7 = 16 ∧ l_hashtbl_count t7 = 7 ∧
    (∀ k2 ∈ [1, 2, 3, 4, 5, 6, 7], (l_hashtbl_lookup t7 k2).1 = 10 * k2) := by
  refine ⟨?_, by decide, by decide, by decide⟩
  obtain ⟨l1, h1⟩ := insertEntry_shape true t k v
  have hlen : (insertEntry true t k v).2.entries.length ≤ t.entries.length + 1 := by
    cases hf : findEntry t k with
    | some e =>
      rw [insertEntry_found true t k v e hf]
      show (setValFirst (entMatch t k) v t.entries).length ≤ _
      rw [setValFirst_length]
      omega
    | none =>
      rw [insertEntry_absent t k v hf]
      show (t.entries ++ [(k, v)]).length ≤ _
      simp
  rw [h1] at hlen
  have hlen2 : l1.length ≤ t.entries.length + 1 := hlen
  have hins : (l_hashtbl_insert true true t k v).2
      = runEvictor (maybeResize true { t with entries := l1 }) := by
    rw [insert_success_eq true t k v, h1]
  rw [hins]
  obtain ⟨l2, fk, fv, hre⟩ := runEvictor_shape (maybeResize true { t with entries := l1 })
  have hlen3 := runEvictor_length_le (maybeResize true { t with entries := l1 })
  rw [hre] at hlen3 ⊢
  unfold l_hashtbl_count at hpre
  unfold l_hashtbl_capacity at hpre hone
  by_cases hc : t.capacity * t.loadNum < l1.length * t.loadDen
  · rw [maybeResize_of_triggered { t with entries := l1 } hauto hc] at hlen3 ⊢
    have hlen4 : l2.length ≤ l1.length := hlen3
    unfold l_hashtbl_count l_hashtbl_capacity maxLoadFactor
    rw [load_le_iff _ _ _ _ hden]
    show l2.length * t.loadDen ≤ ceilPow2 (2 * t.capacity) * t.loadNum
    calc l2.length * t.loadDen
        ≤ l1.length * t.loadDen := Nat.mul_le_mul_right _ hlen4
      _ ≤ (t.entries.length + 1) * t.loadDen := Nat.mul_le_mul_right _ hlen2
      _ = t.entries.length * t.loadDen + t.loadDen := by ring
      _ ≤ t.capacity * t.loadNum + t.capacity * t.loadNum := Nat.add_le_add hpre hone
      _ = 2 * t.capacity * t.loadNum := by ring
      _ ≤ ceilPow2 (2 * t.capacity) * t.loadNum :=
          Nat.mul_le_mul_right _ (le_ceilPow2 _)
  · rw [maybeResize_of_not_triggered true { t with entries := l1 }
      (fun h => hc h.2)] at hlen3 ⊢
    have hlen4 : l2.length ≤ l1.length := hlen3
    unfold l_hashtbl_count l_hashtbl_capacity maxLoadFactor
    rw [load_le_iff _ _ _ _ hden]
    show l2.length * t.loadDen ≤ t.capacity * t.loadNum
    calc l2.length * t.loadDen
        ≤ l1.length * t.loadDen := Nat.mul_le_mul_right _ hlen4
      _ ≤ t.capacity * t.loadNum := by omega

/-- Witness for C7 (amended) at `t7` (capacity 16, count 7, load factor
3/4), inserting key 8. -/
theorem insert_preserves_load_invariant_witness :
    (((l_hashtbl_count (l_hashtbl_insert true true t7 8 80).2 : ℚ) ≤
      (l_hashtbl_capacity (l_hashtbl_insert true true t7 8 80).2 : ℚ) *
        maxLoadFactor (l_hashtbl_insert true true t7 8 80).2) ∧
    l_hashtbl_capacity t7 = 16 ∧ l_hashtbl_count t7 = 7 ∧
    (∀ k2 ∈ [1, 2, 3, 4, 5, 6, 7], (l_hashtbl_lookup t7 k2).1 = 10 * k2)) :=
  insert_preserves_load_invariant t7 8 80 (by decide) (by decide)
    (by decide) (by decide)

/-! ## Claim C8: the eviction hook protocol around insert -/

theorem runEvictor_of_some (t : Tbl K) (f : Nat → Nat) (h : t.evictor = some f) :
    runEvictor t = { t with
      entries := t.entries.drop (f t.entries.length),
      freedKeys := t.freedKeys ++ (t.entries.take (f t.entries.length)).map Prod.fst,
      freedVals := t.freedVals ++ (t.entries.take (f t.entries.length)).map Prod.snd } := by
  unfold runEvictor
  rw [h]

/-- C8: after every completed insert the configured eviction hook is
invoked with the current entry count (of the post-insert, post-resize
table), and the table removes exactly the returned number of entries from
the head of the Order List (oldest first), handing each removed key and
value to the free functions (the ghost logs record them in order).
Concretely, with an evictor returning 1 whenever count > 3, inserting 5
distinct keys leaves count 3, the three newest entries, the two oldest
keys absent, and those two keys/values freed oldest-first. -/
theorem insert_runs_evictor (t : Tbl K) (k : K) (v : Nat) (ra : Bool)
    (f : Nat → Nat) (hev : t.evictor = some f) :
    ((l_hashtbl_insert true ra t k v).2.entries =
       (maybeResize ra (insertEntry true t k v).2).entries.drop
         (f (l_hashtbl_count (maybeResize ra (insertEntry true t k v).2))) ∧
     (l_hashtbl_insert true ra t k v).2.freedKeys =
       t.freedKeys ++ ((maybeResize ra (insertEntry true t k v).2).entries.take
         (f (l_hashtbl_count (maybeResize ra (insertEntry true t k v).2)))).map Prod.fst ∧
     (l_hashtbl_insert true ra t k v).2.freedVals =
       t.freedVals ++ ((maybeResize ra (insertEntry true t k v).2).entries.take
         (f (l_hashtbl_count (maybeResize ra (insertEntry true t k v).2)))).map Prod.snd) ∧
    (l_hashtbl_count tEv5 = 3 ∧
     tEv5.entries = [(3, 30), (4, 40), (5, 50)] ∧
     (l_hashtbl_lookup tEv5 1).1 = 0 ∧ (l_hashtbl_lookup tEv5 2).1 = 0 ∧
     tEv5.freedKeys = [1, 2] ∧ tEv5.freedVals = [10, 20]) := by
  refine ⟨?_, by decide⟩
  obtain ⟨l1, h1⟩ := insertEntry_shape true t k v
  obtain ⟨c, hm⟩ := maybeResize_shape ra (insertEntry true t k v).2
  have hevM : (maybeResize ra (insertEntry true t k v).2).evictor = some f := by
    rw [hm, h1]
    exact hev
  rw [insert_success_eq ra t k v, runEvictor_of_some _ f hevM, hm, h1]
  exact ⟨rfl, rfl, rfl⟩

/-- Witness for C8 at `tEv4` (four entries, hook returning 1 once
count > 3), inserting key 5. -/
theorem insert_runs_evictor_witness :
    ((l_hashtbl_insert true true tEv4 5 50).2.entries =
       (maybeResize true (insertEntry true tEv4 5 50).2).entries.drop
         ((fun c => if 3 < c then 1 else 0)
           (l_hashtbl_count (maybeResize true (insertEntry true tEv4 5 50).2))) ∧
     (l_hashtbl_insert true true tEv4 5 50).2.freedKeys =
       tEv4.freedKeys ++ ((maybeResize true (insertEntry true tEv4 5 50).2).entries.take
         ((fun c => if 3 < c then 1 else 0)
           (l_hashtbl_count (maybeResize true (insertEntry true tEv4 5 50).2)))).map Prod.fst ∧
     (l_hashtbl_insert true true tEv4 5 50).2.freedVals =
       tEv4.freedVals ++ ((maybeResize true (insertEntry true tEv4 5 50).2).entries.take
         ((fun c => if 3 < c then 1 else 0)
           (l_hashtbl_count (maybeResize true (insertEntry true tEv4 5 50).2)))).map Prod.snd) ∧
    (l_hashtbl_count tEv5 = 3 ∧
     tEv5.entries = [(3, 30), (4, 40), (5, 50)] ∧
     (l_hashtbl_lookup tEv5 1).1 = 0 ∧ (l_hashtbl_lookup tEv5 2).1 = 0 ∧
     tEv5.freedKeys = [1, 2] ∧ tEv5.freedVals = [10, 20]) :=
  insert_runs_evictor tEv4 5 50 true (fun c => if 3 < c then 1 else 0) (by rfl)

/-! ## Claim C9: insert fails only on entry allocation -/

theorem maybeResize_false (t : Tbl K) : maybeResize false t = t := by
  unfold maybeResize l_hashtbl_resize
  split <;> rfl

/-- C9: insert reports failure only when the entry node cannot be
allocated.  (a) Overwriting an already-present key always succeeds,
whatever the allocation outcomes.  (b) If the entry allocation succeeds
but the triggered resize's bucket-array allocation fails, the insert
still reports success, the new mapping is present and retrievable, and
nothing changed beyond appending the entry: same capacity (the table may
simply sit above its load threshold).  (c) If the entry node cannot be
allocated for an absent key, insert reports failure and returns the table
untouched. -/
theorem insert_fails_only_on_entry_alloc (t : Tbl K) (k : K) (v : Nat)
    (ea ra : Bool) :
    (∀ e, findEntry t k = some e → (l_hashtbl_insert ea ra t k v).1 = 0) ∧
    (findEntry t k = none → t.evictor = none → t.eq k k = true →
      (l_hashtbl_insert true false t k v).1 = 0 ∧
      (l_hashtbl_insert true false t k v).2.entries = t.entries ++ [(k, v)] ∧
      (l_hashtbl_insert true false t k v).2.capacity = t.capacity ∧
      (l_hashtbl_lookup (l_hashtbl_insert true false t k v).2 k).1 = v) ∧
    (findEntry t k = none → l_hashtbl_insert false ra t k v = (1, t)) := by
  refine ⟨?_, ?_, ?_⟩
  · intro e hf
    have hst : (insertEntry ea t k v).1 = 0 := by
      rw [insertEntry_found ea t k v e hf]
    unfold l_hashtbl_insert
    rw [if_pos hst]
  · intro hf hnoev hrefl
    have hins : l_hashtbl_insert true false t k v
        = (0, { t with entries := t.entries ++ [(k, v)] }) := by
      rw [insert_success_eq false t k v, insertEntry_absent t k v hf]
      show (0, runEvictor (maybeResize false { t with entries := t.entries ++ [(k, v)] })) = _
      rw [maybeResize_false,
        runEvictor_of_none { t with entries := t.entries ++ [(k, v)] } hnoev]
    rw [hins]
    refine ⟨rfl, rfl, rfl, ?_⟩
    have hfind : findEntry { t with entries := t.entries ++ [(k, v)] } k
        = some (k, v) := by
      show (t.entries ++ [(k, v)]).find? (entMatch t k) = some (k, v)
      rw [List.find?_append]
      have h0 : t.entries.find? (entMatch t k) = none := hf
      rw [h0]
      have h1 : entMatch t k (k, v) = true := by
        unfold entMatch
        simp [hrefl]
      simp [List.find?_cons, h1]
    rw [lookup_of_found _ k (k, v) hfind]
  · intro hf
    unfold l_hashtbl_insert
    rw [insertEntry_alloc_fail t k v hf]
    rfl

/-- Witness for C9: part (a) at the present key 5 of `tW`, parts (b) and
(c) at the absent key 7. -/
theorem insert_fails_only_witness :
    ((l_hashtbl_insert true true tW 5 99).1 = 0) ∧
    ((l_hashtbl_insert true false tW 7 70).1 = 0 ∧
     (l_hashtbl_insert true false tW 7 70).2.entries = tW.entries ++ [(7, 70)] ∧
     (l_hashtbl_insert true false tW 7 70).2.capacity = tW.capacity ∧
     (l_hashtbl_lookup (l_hashtbl_insert true false tW 7 70).2 7).1 = 70) ∧
    (l_hashtbl_insert false true tW 7 70 = (1, tW)) :=
  ⟨(insert_fails_only_on_entry_alloc tW 5 99 true true).1 (5, 50) (by decide),
   (insert_fails_only_on_entry_alloc tW 7 70 true true).2.1 (by decide) (by rfl)
     (by decide),
   (insert_fails_only_on_entry_alloc tW 7 70 false true).2.2 (by decide)⟩

/-! ## Claim C2: insert sequences, distinct-key count, last write wins -/

theorem pred_ext_of_eqv (eqf : K → K → Bool)
    (hsymm : ∀ a b, eqf a b = true → eqf b a = true)
    (htrans : ∀ a b c, eqf a b = true → eqf b c = true → eqf a c = true)
    (k k2 : K) (h : eqf k k2 = true) :
    (fun e : K × Nat => eqf k e.1) = (fun e => eqf k2 e.1) := by
  funext e
  cases ha : eqf k e.1 with
  | true =>
    have h2 : eqf k2 e.1 = true := htrans k2 k e.1 (hsymm k k2 h) ha
    rw [h2]
  | false =>
    cases hb : eqf k2 e.1 with
    | true =>
      have h2 : eqf k e.1 = true := htrans k k2 e.1 h hb
      simp [h2] at ha
    | false => rfl

theorem pred_disjoint_of_ne (eqf : K → K → Bool)
    (hsymm : ∀ a b, eqf a b = true → eqf b a = true)
    (htrans : ∀ a b c, eqf a b = true → eqf b c = true → eqf a c = true)
    (k k2 : K) (h : eqf k k2 = false) :
    ∀ e : K × Nat, eqf k2 e.1 = true → eqf k e.1 = false := by
  intro e h2
  cases h3 : eqf k e.1 with
  | false => rfl
  | true =>
    have h5 : eqf k k2 = true := htrans k e.1 k2 h3 (hsymm k2 e.1 h2)
    simp [h5] at h

theorem upsert_found (eqf : K → K → Bool) (l : List (K × Nat)) (k : K) (v : Nat)
    (e : K × Nat) (h : l.find? (fun e2 => eqf k e2.1) = some e) :
    upsert eqf l k v = setValFirst (fun e2 => eqf k e2.1) v l := by
  unfold upsert
  rw [h]

theorem upsert_absent (eqf : K → K → Bool) (l : List (K × Nat)) (k : K) (v : Nat)
    (h : l.find? (fun e2 => eqf k e2.1) = none) :
    upsert eqf l k v = l ++ [(k, v)] := by
  unfold upsert
  rw [h]

theorem insert_entries_upsert (ra : Bool) (t : Tbl K) (k : K) (v : Nat)
    (hresp : ∀ a b, t.eq a b = true → t.hash a = t.hash b)
    (hnoev : t.evictor = none) :
    (l_hashtbl_insert true ra t k v).2.entries = upsert t.eq t.entries k v := by
  rw [insert_entries_noev true ra t k v hnoev (insertEntry_fst t k v)]
  unfold upsert
  cases hfind : t.entries.find? (fun e => t.eq k e.1) with
  | some e =>
    have h1 : findEntry t k = some e := by
      rw [findEntry_eq_of_resp t hresp k, hfind]
    rw [insertEntry_found true t k v e h1]
    show setValFirst (entMatch t k) v t.entries
        = setValFirst (fun e2 => t.eq k e2.1) v t.entries
    rw [entMatch_eq_of_resp t hresp k]
  | none =>
    have h1 : findEntry t k = none := by
      rw [findEntry_eq_of_resp t hresp k, hfind]
    rw [insertEntry_absent t k v h1]

theorem insertAll_entries_upsert (kvs : List (K × Nat)) :
    ∀ t : Tbl K, (∀ a b, t.eq a b = true → t.hash a = t.hash b) →
    t.evictor = none →
    (insertAll t kvs).entries
      = kvs.foldl (fun l kv => upsert t.eq l kv.1 kv.2) t.entries := by
  induction kvs with
  | nil =>
    intro t _ _
    rfl
  | cons kv rest ih =>
    intro t hresp hnoev
    obtain ⟨hh, he, -, -, hev, -, -⟩ := insert_fields true true t kv.1 kv.2
    have hresp2 : ∀ a b, (l_hashtbl_insert true true t kv.1 kv.2).2.eq a b = true →
        (l_hashtbl_insert true true t kv.1 kv.2).2.hash a =
          (l_hashtbl_insert true true t kv.1 kv.2).2.hash b := by
      rw [hh, he]
      exact hresp
    have step := ih (l_hashtbl_insert true true t kv.1 kv.2).2 hresp2
      (hev.trans hnoev)
    unfold insertAll at step ⊢
    rw [List.foldl_cons, step, he,
      insert_entries_upsert true t kv.1 kv.2 hresp hnoev, List.foldl_cons]

theorem map_fst_upsert (eqf : K → K → Bool) (l : List (K × Nat)) (k : K) (v : Nat) :
    (upsert eqf l k v).map Prod.fst =
      if (l.map Prod.fst).any (fun a => eqf k a) then l.map Prod.fst
      else l.map Prod.fst ++ [k] := by
  unfold upsert
  cases hfind : l.find? (fun e => eqf k e.1) with
  | some e =>
    have hany : (l.map Prod.fst).any (fun a => eqf k a) = true := by
      rw [List.any_eq_true]
      refine ⟨e.1, List.mem_map_of_mem Prod.fst (List.mem_of_find?_eq_some hfind), ?_⟩
      have hpe := List.find?_some hfind
      exact hpe
    rw [if_pos hany]
    exact setValFirst_map_fst _ v l
  | none =>
    have hany : (l.map Prod.fst).any (fun a => eqf k a) = false := by
      rw [List.any_eq_false]
      intro a ha
      rcases List.mem_map.mp ha with ⟨e, he, rfl⟩
      simpa using List.find?_eq_none.mp hfind e he
    rw [if_neg (by simp [hany])]
    simp

theorem foldl_upsert_map_fst (eqf : K → K → Bool) (kvs : List (K × Nat)) :
    ∀ l : List (K × Nat),
    ((kvs.foldl (fun l2 kv => upsert eqf l2 kv.1 kv.2) l).map Prod.fst) =
      (kvs.map Prod.fst).foldl
        (fun acc k2 => if acc.any (fun a => eqf k2 a) then acc else acc ++ [k2])
        (l.map Prod.fst) := by
  induction kvs with
  | nil => intro l; rfl
  | cons kv rest ih =>
    intro l
    rw [List.foldl_cons, List.map_cons, List.foldl_cons, ih, map_fst_upsert]

theorem find?_foldl_upsert (eqf : K → K → Bool)
    (hsymm : ∀ a b, eqf a b = true → eqf b a = true)
    (htrans : ∀ a b c, eqf a b = true → eqf b c = true → eqf a c = true)
    (kvs : List (K × Nat)) (k : K) :
    ((kvs.foldl (fun l kv => upsert eqf l kv.1 kv.2) []).find?
        (fun e => eqf k e.1)).map Prod.snd
      = (kvs.reverse.find? (fun e => eqf k e.1)).map Prod.snd := by
  induction kvs using List.reverseRecOn with
  | nil => rfl
  | append_singleton init b ih =>
    rw [List.foldl_append, List.reverse_append]
    simp only [List.foldl_cons, List.foldl_nil, List.reverse_cons, List.reverse_nil,
      List.nil_append, List.singleton_append, List.find?_cons]
    cases hkb : eqf k b.1 with
    | true =>
      have hpred : (fun e : K × Nat => eqf k e.1) = (fun e => eqf b.1 e.1) :=
        pred_ext_of_eqv eqf hsymm htrans k b.1 hkb
      cases hfind : (init.foldl (fun l kv => upsert eqf l kv.1 kv.2) []).find?
          (fun e => eqf b.1 e.1) with
      | some u =>
        rw [upsert_found eqf _ b.1 b.2 u hfind, hpred,
          find?_setValFirst_self (fun e => eqf b.1 e.1) (fun a b2 b3 => rfl) b.2 _,
          hfind]
        rfl
      | none =>
        have hbb : eqf b.1 b.1 = true := htrans b.1 k b.1 (hsymm k b.1 hkb) hkb
        rw [upsert_absent eqf _ b.1 b.2 hfind, hpred, List.find?_append, hfind]
        simp [List.find?_cons, hbb]
    | false =>
      have hdisj := pred_disjoint_of_ne eqf hsymm htrans k b.1 hkb
      cases hfind : (init.foldl (fun l kv => upsert eqf l kv.1 kv.2) []).find?
          (fun e => eqf b.1 e.1) with
      | some u =>
        rw [upsert_found eqf _ b.1 b.2 u hfind,
          find?_setValFirst_disjoint (fun e => eqf b.1 e.1)
            (fun e => eqf k e.1) (fun a b2 b3 => rfl) hdisj b.2 _]
        simpa using ih
      | none =>
        rw [upsert_absent eqf _ b.1 b.2 hfind, List.find?_append]
        have h0 : ([b].find? (fun e => eqf k e.1)) = none := by
          simp [List.find?_cons, hkb]
        rw [h0, Option.or_none]
        simpa using ih

/-- C2: for every insert-only sequence into a freshly created table (the
equality function an equivalence respected by the hash function, no
eviction hook), count afterwards equals the number of distinct keys
inserted, the order list holds exactly the distinct keys in first-insert
order (an insert whose key equals an existing one overwrites the value in
place instead of adding an entry), and lookup of each inserted key
returns the last value written for it. -/
theorem insert_sequence_count_and_last_write (cap : Nat) (mn : Int) (md : Nat)
    (ar ao : Bool) (hash : K → Nat) (eqf : K → K → Bool) (kvs : List (K × Nat))
    (hresp : ∀ a b, eqf a b = true → hash a = hash b)
    (hrefl : ∀ a, eqf a a = true)
    (hsymm : ∀ a b, eqf a b = true → eqf b a = true)
    (htrans : ∀ a b c, eqf a b = true → eqf b c = true → eqf a c = true) :
    l_hashtbl_count (insertAll (l_hashtbl_create cap mn md ar ao hash eqf none) kvs)
      = (distinctKeys eqf (kvs.map Prod.fst)).length ∧
    (insertAll (l_hashtbl_create cap mn md ar ao hash eqf none) kvs).entries.map
        Prod.fst = distinctKeys eqf (kvs.map Prod.fst) ∧
    ∀ k ∈ kvs.map Prod.fst,
      some ((l_hashtbl_lookup
          (insertAll (l_hashtbl_create cap mn md ar ao hash eqf none) kvs) k).1)
        = lastWritten eqf kvs k := by
  have hentries :
      (insertAll (l_hashtbl_create cap mn md ar ao hash eqf none) kvs).entries
        = kvs.foldl (fun l kv => upsert eqf l kv.1 kv.2) [] :=
    insertAll_entries_upsert kvs (l_hashtbl_create cap mn md ar ao hash eqf none)
      hresp rfl
  have hmap :
      (insertAll (l_hashtbl_create cap mn md ar ao hash eqf none) kvs).entries.map
        Prod.fst = distinctKeys eqf (kvs.map Prod.fst) := by
    rw [hentries, foldl_upsert_map_fst]
    rfl
  refine ⟨?_, hmap, ?_⟩
  · show (insertAll (l_hashtbl_create cap mn md ar ao hash eqf none) kvs).entries.length
        = (distinctKeys eqf (kvs.map Prod.fst)).length
    rw [← hmap]
    exact (List.length_map _ _).symm
  · intro k hk
    have hfind := find?_foldl_upsert eqf hsymm htrans kvs k
    rw [← hentries] at hfind
    have hresp2 : ∀ a b,
        (insertAll (l_hashtbl_create cap mn md ar ao hash eqf none) kvs).eq a b = true →
        (insertAll (l_hashtbl_create cap mn md ar ao hash eqf none) kvs).hash a =
          (insertAll (l_hashtbl_create cap mn md ar ao hash eqf none) kvs).hash b := by
      rw [insertAll_eq_fn, insertAll_hash_fn]
      exact hresp
    have hfe : findEntry
        (insertAll (l_hashtbl_create cap mn md ar ao hash eqf none) kvs) k
        = (insertAll (l_hashtbl_create cap mn md ar ao hash eqf none) kvs).entries.find?
            (fun e => eqf k e.1) := by
      rw [findEntry_eq_of_resp _ hresp2 k, insertAll_eq_fn]
      rfl
    rcases List.mem_map.mp hk with ⟨e0, he0, rfl⟩
    have hsome : ∃ u, kvs.reverse.find? (fun e => eqf e0.1 e.1) = some u := by
      have h1 : ∃ x ∈ kvs.reverse, (fun e : K × Nat => eqf e0.1 e.1) x = true :=
        ⟨e0, List.mem_reverse.mpr he0, hrefl e0.1⟩
      exact Option.isSome_iff_exists.mp (List.find?_isSome.mpr h1)
    obtain ⟨u, hu⟩ := hsome
    rw [hu] at hfind
    simp only [Option.map_some'] at hfind
    obtain ⟨w, hw, hw2⟩ := Option.map_eq_some'.mp hfind
    have hfew : findEntry
        (insertAll (l_hashtbl_create cap mn md ar ao hash eqf none) kvs) e0.1
        = some w := by
      rw [hfe]
      exact hw
    rw [lookup_of_found _ e0.1 w hfew]
    unfold lastWritten
    rw [hu]
    show some w.2 = some u.2
    rw [hw2]

/-- Witness for C2 with the sequence (1,10), (2,20), (1,30): two distinct
keys, and last write wins for key 1. -/
theorem insert_sequence_witness :
    l_hashtbl_count (insertAll (l_hashtbl_create 8 3 4 true false natHash natEq none)
        [(1, 10), (2, 20), (1, 30)])
      = (distinctKeys natEq ([(1, 10), (2, 20), (1, 30)].map Prod.fst)).length ∧
    (insertAll (l_hashtbl_create 8 3 4 true false natHash natEq none)
        [(1, 10), (2, 20), (1, 30)]).entries.map Prod.fst
      = distinctKeys natEq ([(1, 10), (2, 20), (1, 30)].map Prod.fst) ∧
    ∀ k ∈ [(1, 10), (2, 20), (1, 30)].map Prod.fst,
      some ((l_hashtbl_lookup (insertAll
          (l_hashtbl_create 8 3 4 true false natHash natEq none)
          [(1, 10), (2, 20), (1, 30)]) k).1)
        = lastWritten natEq [(1, 10), (2, 20), (1, 30)] k :=
  insert_sequence_count_and_last_write 8 3 4 true false natHash natEq
    [(1, 10), (2, 20), (1, 30)] natResp
    (fun a => by simp [natEq])
    (fun a b h => by
      simp [natEq] at h ⊢
      omega)
    (fun a b c h1 h2 => by
      simp [natEq] at h1 h2 ⊢
      omega)

end LinkedHashtbl
